import Mathlib

/-!
Verification of the extraction-and-aggregation pipeline of `scoreWDLstat.cpp`
(WLD_model repository).

The chess rules engine (`external/chess.hpp`) and the PGN reader are external
collaborators; they are modelled by an abstract board interface (`BoardIface`)
and by games given as header lookup plus move list (`GameRec`).  The program's
own code — `fast_stof`, the per-ply score extraction, `ana_game`, `ana_files`,
`split_chunks`, and the merge loop of `main` — is embedded here definition by
definition.

The C++ computes evaluation values in `float`.  The parser accumulates decimal
digits into an integer-valued accumulator and finally divides by a power of
ten, so its exact value is a rational; we model the arithmetic exactly:
`stofParse` keeps the (signed integer numerator, power-of-ten denominator)
pair, `fast_stof` is the exact rational value, and the `float → int`
conversion (`int score = 100 * fast_stof(...)`) is truncation toward zero,
modelled by `truncQuot` and proved to agree with truncation of the exact
rational (`truncQuot_eq_ratTrunc`).
-/

/-- Side to move, as reported by the external rules engine. -/
inductive Color : Type
  | WHITE : Color
  | BLACK : Color
deriving DecidableEq, Repr

/-- `enum class Result { WIN = 'W', DRAW = 'D', LOSS = 'L' }` (line 20). -/
inductive Result : Type
  | WIN : Result
  | DRAW : Result
  | LOSS : Result
deriving DecidableEq, Repr

/-- `struct ResultKey { Result white; Result black; }` (lines 22-25). -/
structure ResultKey : Type where
  white : Result
  black : Result
deriving DecidableEq, Repr

/-- `struct Key { Result outcome; int move, material, score; }` (lines 27-45),
with equality over all four fields (line 30). -/
structure Key : Type where
  outcome : Result
  move : Int
  material : Int
  score : Int
deriving DecidableEq, Repr

/-- The piece types queried by `ana_game` (lines 181-185). -/
inductive PieceType : Type
  | KNIGHT : PieceType
  | BISHOP : PieceType
  | ROOK : PieceType
  | QUEEN : PieceType
  | PAWN : PieceType
deriving DecidableEq, Repr

/-- `map_t = std::unordered_map<Key, int>` (line 54), modelled as an
association list of (key, count) entries; the map's count for a key is the
value of its (unique) entry for that key, see `tabCount`. -/
abbrev Table : Type := List (Key × Int)

/-- The count the map associates to `k` (0 if no entry exists, matching
`operator[]` value-initialization). -/
def tabCount (t : Table) (k : Key) : Int :=
  match t with
  | [] => 0
  | (k0, c0) :: rest => if k0 = k then c0 else tabCount rest k

/-- `t[k] += c` on `map_t`: if an entry for `k` exists its count is increased
by `c`, otherwise `operator[]` value-initializes the entry to 0 and `+=`
leaves it at `c` (lines 187 and 308). -/
def bump (t : Table) (k : Key) (c : Int) : Table :=
  match t with
  | [] => [(k, c)]
  | (k0, c0) :: rest => if k0 = k then (k0, c0 + c) :: rest else (k0, c0) :: bump rest k c

/-- Sum of the counts of all entries of `t` whose key is `k`.  For tables with
no duplicate keys (every table the program builds) this equals `tabCount`. -/
def entrySum (t : Table) (k : Key) : Int :=
  match t with
  | [] => 0
  | (k0, c0) :: rest => (if k0 = k then c0 else 0) + entrySum rest k

/-- The aggregator's merge (lines 307-309): for every (key, count) pair of the
local table, `pos_map[pair.first] += pair.second`. -/
def mergeInto (global loc : Table) : Table :=
  loc.foldl (fun g p => bump g p.1 p.2) global

/-- No two entries share a key (invariant of every table the program builds). -/
def keysND (t : Table) : Prop :=
  (t.map Prod.fst).Nodup

/-- All stored counts are at least 1. -/
def allPos (t : Table) : Prop :=
  ∀ p ∈ t, 1 ≤ p.2

/-! ## The numeric parser (`analysis::fast_stof`, lines 64-102)

The C function accumulates `result = result * 10 + digit` over the integer
digits, keeps accumulating the same way over the digits after `'.'` while
multiplying `fraction` by 10 per digit, then applies the sign and divides by
`fraction` once.  Until the final division every value involved is an exact
(small) integer, so the computation is modelled exactly by the pair
(signed accumulated numerator, fraction denominator). -/

/-- Digits of the integer part: `while ('0' <= *str && *str <= '9') result =
result*10 + (*str - '0')` (lines 79-82). Returns the accumulator and the rest
of the string. -/
def intPart : List Char → Int → Int × List Char
  | [], r => (r, [])
  | c :: cs, r =>
    if '0' ≤ c ∧ c ≤ '9' then intPart cs (r * 10 + ((c.toNat - '0'.toNat : Nat) : Int))
    else (r, c :: cs)

/-- Digits of the fractional part (lines 85-93): keeps accumulating into the
same accumulator while multiplying the fraction by 10 per digit. -/
def fracPart : List Char → Int → Nat → Int × Nat
  | [], r, f => (r, f)
  | c :: cs, r, f =>
    if '0' ≤ c ∧ c ≤ '9' then fracPart cs (r * 10 + ((c.toNat - '0'.toNat : Nat) : Int)) (f * 10)
    else (r, f)

/-- The sign handling of lines 71-76: a leading `'-'` or `'+'` is consumed
and determines the sign factor. -/
def stripSign (cs : List Char) : Int × List Char :=
  match cs with
  | '-' :: rest => (-1, rest)
  | '+' :: rest => (1, rest)
  | _ => (1, cs)

/-- Exact model of `fast_stof` (lines 64-102): sign handling (`stripSign`),
integer digits, optional fractional digits.  Returns the signed numerator and
the denominator (1 when no decimal point was seen; the code only divides by
`fraction` when `decimal` was set, and `fraction` stays `1.0` otherwise, so
folding the flag into the denominator is exact; applying the sign before the
division, as lines 96-99 do, is exact as well). -/
def stofParse (cs : List Char) : Int × Nat :=
  let ir := intPart (stripSign cs).2 0
  match ir.2 with
  | '.' :: rest =>
    let rf := fracPart rest ir.1 1
    ((stripSign cs).1 * rf.1, rf.2)
  | _ => ((stripSign cs).1 * ir.1, 1)

/-- The exact rational value returned by `fast_stof` (the float computation
modelled in exact arithmetic). -/
def fast_stof (cs : List Char) : ℚ :=
  ((stofParse cs).1 : ℚ) / ((stofParse cs).2 : ℚ)

/-- Truncation toward zero of the rational `a / d` (with `0 < d`), the value
of the C++ `float → int` conversion applied to that quotient.  Computable by
integer division: Lean's `/` on `Int` rounds toward negative infinity, so
truncation negates twice on negative numerators. -/
def truncQuot (a : Int) (d : Nat) : Int :=
  if 0 ≤ a then a / (d : Int) else -((-a) / (d : Int))

/-- Truncation toward zero of a rational (the C++ `float → int` conversion). -/
def ratTrunc (q : ℚ) : Int :=
  if 0 ≤ q then ⌊q⌋ else -⌊-q⌋

/-! ## Per-ply score extraction (`ana_game`, lines 150-176) -/

/-- Total model of `std::string::operator[]`: positions up to the size are
defined (position = size reads the terminating null character); larger
positions are undefined behavior in C++ and are given the null character here
(see `mateReadOk` for the bounds analysis of the one such read). -/
def cppAt (cs : List Char) (i : Nat) : Char :=
  cs.getD i (Char.ofNat 0)

/-- Whether the read `match_score[1]` of the mate-indicator check (line 158)
is within the defined range of `match_score` — i.e. position 1 does not
exceed the size of the text before the `'/'` delimiter.  `true` when the
check is not reached at all. -/
def mateReadOk (comment : String) : Bool :=
  match List.findIdx? (fun ch => ch = '/') comment.data with
  | none => true
  | some d => if comment = "book" then true else decide (1 ≤ (comment.data.take d).length)

/-- The clamp of lines 168-172: `if (score > 1000) score = 1000; else if
(score < -1000) score = -1000;`. -/
def clampInt (s : Int) : Int :=
  if s > 1000 then 1000 else if s < -1000 then -1000 else s

/-- The score extracted from one move's comment (lines 150-176), or `none`
when the sentinel 1002 survives (no `'/'` delimiter, or the comment is
`"book"`) and the ply is skipped (line 178).

  * `match_score = move.comment.substr(0, delimiter_pos)` is `take d`;
  * `match_score[1] == 'M'` is the mate branch: `+1001` if `match_score[0]`
    is `'+'`, else `-1001` (lines 158-163);
  * otherwise `int score = 100 * fast_stof(match_score.c_str())` truncates
    the exact product toward zero (`truncQuot`, see
    `truncQuot_eq_ratTrunc`), the clamp of lines 168-172 applies, and
    `int(std::floor(score / 5.0)) * 5` is floor division by 5 then
    multiplication by 5 (Lean's `/` on `Int` rounds toward negative
    infinity, which is `std::floor` of the exact real quotient). -/
def plyScore (comment : String) : Option Int :=
  match List.findIdx? (fun ch => ch = '/') comment.data with
  | none => none
  | some d =>
    if comment = "book" then none
    else
      if cppAt (comment.data.take d) 1 = 'M' then
        if cppAt (comment.data.take d) 0 = '+' then some 1001 else some (-1001)
      else
        some ((clampInt (truncQuot (100 * (stofParse (comment.data.take d)).1)
          (stofParse (comment.data.take d)).2) / 5) * 5)

/-! ## Game analysis (`ana_game`, lines 110-192) -/

/-- The operations `ana_game` needs from the external rules engine
(`chess.hpp`): default construction, `setFen`, `set960`, `sideToMove`,
`builtin::popcount(board.pieces(pt))`, and `makeMove`. -/
structure BoardIface (B M : Type) : Type where
  defaultBoard : B
  setFen : B → String → B
  set960 : B → Bool → B
  sideToMove : B → Color
  popcountPieces : B → PieceType → Int
  makeMove : B → M → B

/-- One move of a parsed game: the move itself and its comment string. -/
structure MoveRec (M : Type) : Type where
  move : M
  comment : String

/-- One parsed game as delivered by the PGN reader: header lookup and the
ordered move list. -/
structure GameRec (M : Type) : Type where
  headers : String → Option String
  moves : List (MoveRec M)

/-- Result-string decoding of lines 119-130: `"1-0"`, `"0-1"` and
`"1/2-1/2"` produce the per-color outcome pair; anything else means the game
is skipped (`none`). -/
def resultKeyFor (res : String) : Option ResultKey :=
  if res = "1-0" then some ⟨Result.WIN, Result.LOSS⟩
  else if res = "0-1" then some ⟨Result.LOSS, Result.WIN⟩
  else if res = "1/2-1/2" then some ⟨Result.DRAW, Result.DRAW⟩
  else none

/-- Board initialization of lines 132-141: default board, `setFen` if a
`"FEN"` header exists, `set960 true` if the `"Variant"` header is
`"fischerandom"`. -/
def startBoard {B M : Type} (iface : BoardIface B M) (g : GameRec M) : B :=
  let b := iface.defaultBoard
  let b := match g.headers "FEN" with
    | some fen => iface.setFen b fen
    | none => b
  if g.headers "Variant" = some "fischerandom" then iface.set960 b true else b

/-- The key construction of lines 179-186: outcome from the point of view of
the side to move, `key.move = (ply + 1) / 2`, weighted material count from
the board state before the move is applied, and the extracted score. -/
def mkKey {B M : Type} (iface : BoardIface B M) (rk : ResultKey) (b : B) (ply : Nat)
    (score : Int) : Key :=
  { outcome := if iface.sideToMove b = Color.WHITE then rk.white else rk.black
    move := (((ply + 1) / 2 : Nat) : Int)
    material := 9 * iface.popcountPieces b PieceType.QUEEN
      + 5 * iface.popcountPieces b PieceType.ROOK
      + 3 * iface.popcountPieces b PieceType.BISHOP
      + 3 * iface.popcountPieces b PieceType.KNIGHT
      + iface.popcountPieces b PieceType.PAWN
    score := score }

/-- Everything the move loop of `ana_game` (lines 143-191) produces: the
updated map, plus — made explicit for specification purposes — the list of
(ply, side to move, key) triples whose keys were incremented, the list of
moves actually applied to the board, and the final board state. -/
structure LoopOut (B M : Type) : Type where
  table : Table
  trace : List (Nat × Color × Key)
  applied : List M
  board : B

/-- The move loop of `ana_game` (lines 143-191): increment the ply counter,
break once it exceeds 400, extract the score from the comment, increment the
key's entry when a score was found, then apply the move. -/
def anaLoop {B M : Type} (iface : BoardIface B M) (rk : ResultKey) :
    B → Nat → List (MoveRec M) → Table → LoopOut B M
  | b, _, [], t => ⟨t, [], [], b⟩
  | b, ply, mv :: rest, t =>
    if ply + 1 > 400 then ⟨t, [], [], b⟩
    else
      match plyScore mv.comment with
      | none =>
        let out := anaLoop iface rk (iface.makeMove b mv.move) (ply + 1) rest t
        { out with applied := mv.move :: out.applied }
      | some s =>
        let key := mkKey iface rk b (ply + 1) s
        let out := anaLoop iface rk (iface.makeMove b mv.move) (ply + 1) rest (bump t key 1)
        { out with
            trace := (ply + 1, iface.sideToMove b, key) :: out.trace
            applied := mv.move :: out.applied }

/-- `ana_game` (lines 110-192) with its observable effects: games with a
missing or unrecognized `"Result"` header are skipped (lines 111-113 and
128-129); otherwise the move loop runs from the initial board with the ply
counter at 0. -/
def gameOut {B M : Type} (iface : BoardIface B M) (g : GameRec M) (t : Table) : LoopOut B M :=
  match g.headers "Result" with
  | none => ⟨t, [], [], startBoard iface g⟩
  | some res =>
    match resultKeyFor res with
    | none => ⟨t, [], [], startBoard iface g⟩
    | some rk => anaLoop iface rk (startBoard iface g) 0 g.moves t

/-- `ana_game(pos_map, game)`: the map after analyzing one game. -/
def anaGame {B M : Type} (iface : BoardIface B M) (t : Table) (g : GameRec M) : Table :=
  (gameOut iface g t).table

/-- The (ply, side to move, key) triples of the increments `ana_game`
performs for one game (the trace does not depend on the starting table, see
`gameOut_trace_indep`). -/
def gameTrace {B M : Type} (iface : BoardIface B M) (g : GameRec M) :
    List (Nat × Color × Key) :=
  (gameOut iface g []).trace

/-- The keys of the plies of one game that map to a key. -/
def gameKeys {B M : Type} (iface : BoardIface B M) (g : GameRec M) : List Key :=
  (gameTrace iface g).map (fun e => e.2.2)

/-- One file of the chunk, processed game by game (`ana_files`, lines
201-209: `readGame` until exhaustion, `ana_game` on each). -/
def anaFile {B M : Type} (iface : BoardIface B M) (t : Table) (gs : List (GameRec M)) : Table :=
  gs.foldl (fun m g => anaGame iface m g) t

/-- `ana_files(map, files)` (lines 194-213): the chunk's files in order, each
file's games in order, into one local table.  A file is its list of parsed
games (the reader and I/O degradation are external). -/
def ana_files {B M : Type} (iface : BoardIface B M) (t : Table)
    (fs : List (List (GameRec M))) : Table :=
  fs.foldl (fun m gs => anaFile iface m gs) t

/-- All keys of all plies of all games of all files, in order. -/
def filesKeys {B M : Type} (iface : BoardIface B M) (fs : List (List (GameRec M))) :
    List Key :=
  (fs.flatten.map (fun g => gameKeys iface g)).flatten

/-- Number of occurrences of the key `k` in a list of keys — the number of
plies that map to `k`. -/
def countKey (k : Key) : List Key → Nat
  | [] => 0
  | k0 :: rest => (if k0 = k then 1 else 0) + countKey k rest

/-! ## Chunking (`split_chunks`, lines 236-253, and `main`, line 275) -/

/-- The chunking loop of lines 245-250: repeatedly take
`min(chunks_size, remaining)` files.  (For `cs = 0` the C++ loop would not
advance; the program only reaches the loop body with `cs ≥ 1`, since
`chunks_size ≥ 1` whenever the file list is non-empty and `target_chunks ≥ 1`;
this model takes one element in that unreachable case to terminate.)

The `fuel` argument makes the recursion structural; `split_chunks` passes the
list's length, which suffices since each round removes at least one element,
so the fuel-exhausted branch is never taken. -/
def splitChunksGo {α : Type} (cs : Nat) : Nat → List α → List (List α)
  | _, [] => []
  | 0, _ :: _ => []
  | fuel + 1, a :: l => (a :: l.take (cs - 1)) :: splitChunksGo cs fuel (l.drop (cs - 1))

/-- `split_chunks(pgns, target_chunks)` (lines 236-253):
`chunks_size = (pgns.size() + target_chunks - 1) / target_chunks`, then
successive `chunks_size`-sized contiguous chunks. -/
def split_chunks {α : Type} (pgns : List α) (tc : Nat) : List (List α) :=
  splitChunksGo ((pgns.length + tc - 1) / tc) pgns.length pgns

/-- `int target_chunks = 4 * std::max(1, int(std::thread::hardware_concurrency()))`
(line 275), as a function of the reported hardware concurrency. -/
def target_chunks (hw : Nat) : Nat :=
  4 * max 1 hw

/-! ## Specification-side definitions (for the refinement claims) -/

/-- The quantization pipeline exactly as the specification words it (claim
C3): multiply the parsed value by 100, clamp the product to the closed range
[-1000, 1000], then round toward negative infinity to the nearest lower
multiple of 5. -/
def specClaimQuant (v : ℚ) : Int :=
  ⌊(max (-1000) (min 1000 (100 * v))) / 5⌋ * 5

/-- The amended quantization pipeline: truncate the product `100 * v` toward
zero to an integer first (the C++ `float → int` conversion), then clamp to
[-1000, 1000], then round toward negative infinity to the nearest lower
multiple of 5 (`Int` division by 5, then times 5). -/
def truncThenQuant (v : ℚ) : Int :=
  ((clampInt (ratTrunc (100 * v))) / 5) * 5

/-! ## Concrete instances (used to evaluate the theorems on real inputs) -/

/-- A miniature instance of the external rules engine, used to instantiate
the (board-generic) theorems on concrete games: the board state is just the
side to move, flipped by every move; every piece count reads 2, so the
weighted material is `9*2 + 5*2 + 3*2 + 3*2 + 2 = 42`. -/
def cbIface : BoardIface Color Unit :=
  { defaultBoard := Color.WHITE
    setFen := fun b _ => b
    set960 := fun b _ => b
    sideToMove := fun b => b
    popcountPieces := fun _ _ => 2
    makeMove := fun b _ =>
      match b with
      | Color.WHITE => Color.BLACK
      | Color.BLACK => Color.WHITE }

/-- A game won by white with a quantized-score ply and a mate-score ply. -/
def gW : GameRec Unit :=
  { headers := fun s => if s = "Result" then some "1-0" else none
    moves := [⟨(), "+0.25/18"⟩, ⟨(), "-M3/20"⟩] }

/-- A game won by black with one clamped-score ply. -/
def gL : GameRec Unit :=
  { headers := fun s => if s = "Result" then some "0-1" else none
    moves := [⟨(), "10/3"⟩] }

/-- A game with an unrecognized result string. -/
def gX : GameRec Unit :=
  { headers := fun s => if s = "Result" then some "*" else none
    moves := [⟨(), "+1.00/10"⟩] }

/-- The key of `gW`'s first ply under `cbIface`. -/
def kW1 : Key := ⟨Result.WIN, 1, 42, 25⟩

/-- The key of `gW`'s second ply under `cbIface`. -/
def kW2 : Key := ⟨Result.LOSS, 1, 42, -1001⟩

/-- The key of `gL`'s only ply under `cbIface`. -/
def kL1 : Key := ⟨Result.LOSS, 1, 42, 1000⟩


/-! ## Lemmas about the table operations -/

theorem tabCount_bump (t : Table) (kb k : Key) (c : Int) :
    tabCount (bump t kb c) k = tabCount t k + (if kb = k then c else 0) := by
  induction t with
  | nil =>
    by_cases h : kb = k <;> simp [bump, tabCount, h]
  | cons p rest ih =>
    obtain ⟨k0, c0⟩ := p
    by_cases h0 : k0 = kb
    · subst h0
      by_cases hk : k0 = k <;> simp [bump, tabCount, hk]
    · by_cases hk : k0 = k
      · subst hk
        have : ¬ kb = k0 := fun h => h0 h.symm
        simp [bump, tabCount, h0, this]
      · simp [bump, tabCount, h0, hk, ih]

theorem entrySum_bump (t : Table) (kb k : Key) (c : Int) :
    entrySum (bump t kb c) k = entrySum t k + (if kb = k then c else 0) := by
  induction t with
  | nil =>
    by_cases h : kb = k <;> simp [bump, entrySum, h]
  | cons p rest ih =>
    obtain ⟨k0, c0⟩ := p
    by_cases h0 : k0 = kb
    · subst h0
      by_cases hk : k0 = k
      · simp [bump, entrySum, hk]
        ring
      · simp [bump, entrySum, hk]
    · by_cases hk : k0 = k
      · subst hk
        simp [bump, entrySum, h0, ih]
        ring
      · simp [bump, entrySum, h0, hk, ih]

theorem tabCount_mergeInto (g : Table) (l : Table) (k : Key) :
    tabCount (mergeInto g l) k = tabCount g k + entrySum l k := by
  induction l generalizing g with
  | nil => simp [mergeInto, entrySum]
  | cons p rest ih =>
    obtain ⟨k0, c0⟩ := p
    have step : mergeInto g ((k0, c0) :: rest) = mergeInto (bump g k0 c0) rest := rfl
    rw [step, ih, tabCount_bump]
    simp [entrySum]
    ring

theorem entrySum_eq_zero_of_not_mem (t : Table) (k : Key)
    (h : k ∉ t.map Prod.fst) : entrySum t k = 0 := by
  induction t with
  | nil => simp [entrySum]
  | cons p rest ih =>
    obtain ⟨k0, c0⟩ := p
    simp only [List.map_cons, List.mem_cons] at h
    push_neg at h
    have hne : ¬ k0 = k := fun he => h.1 he.symm
    simp [entrySum, hne, ih h.2]

theorem tabCount_eq_zero_of_not_mem (t : Table) (k : Key)
    (h : k ∉ t.map Prod.fst) : tabCount t k = 0 := by
  induction t with
  | nil => simp [tabCount]
  | cons p rest ih =>
    obtain ⟨k0, c0⟩ := p
    simp only [List.map_cons, List.mem_cons] at h
    push_neg at h
    have hne : ¬ k0 = k := fun he => h.1 he.symm
    simp [tabCount, hne, ih h.2]

theorem entrySum_eq_tabCount (t : Table) (k : Key) (h : keysND t) :
    entrySum t k = tabCount t k := by
  induction t with
  | nil => simp [entrySum, tabCount]
  | cons p rest ih =>
    obtain ⟨k0, c0⟩ := p
    rw [keysND, List.map_cons, List.nodup_cons] at h
    by_cases hk : k0 = k
    · subst hk
      simp [entrySum, tabCount, entrySum_eq_zero_of_not_mem rest k0 h.1]
    · simp [entrySum, tabCount, hk, ih h.2]

theorem bump_map_fst (t : Table) (k : Key) (c : Int) :
    (bump t k c).map Prod.fst =
      if k ∈ t.map Prod.fst then t.map Prod.fst else t.map Prod.fst ++ [k] := by
  induction t with
  | nil => simp [bump]
  | cons p rest ih =>
    obtain ⟨k0, c0⟩ := p
    by_cases h0 : k0 = k
    · subst h0
      simp [bump]
    · have hne : ¬ k = k0 := fun he => h0 he.symm
      by_cases hmem : k ∈ rest.map Prod.fst
      · simp [bump, h0, ih, hmem, hne]
      · simp [bump, h0, ih, hmem, hne]

theorem keysND_bump (t : Table) (k : Key) (c : Int) (h : keysND t) :
    keysND (bump t k c) := by
  rw [keysND, bump_map_fst]
  by_cases hmem : k ∈ t.map Prod.fst
  · simpa [hmem] using h
  · simp only [hmem, if_false]
    rw [List.nodup_append]
    refine ⟨h, List.nodup_singleton k, ?_⟩
    intro a ha hb
    rcases List.mem_singleton.mp hb with rfl
    exact hmem ha

theorem allPos_bump (t : Table) (k : Key) (c : Int) (ht : allPos t) (hc : 1 ≤ c) :
    allPos (bump t k c) := by
  induction t with
  | nil =>
    intro p hp
    rcases List.mem_singleton.mp hp with rfl
    exact hc
  | cons q rest ih =>
    obtain ⟨k0, c0⟩ := q
    have h0 : 1 ≤ c0 := ht (k0, c0) (List.mem_cons_self _ _)
    have hrest : allPos rest := fun p hp => ht p (List.mem_cons_of_mem _ hp)
    by_cases hk : k0 = k
    · subst hk
      intro p hp
      simp only [bump, if_pos rfl] at hp
      rcases List.mem_cons.mp hp with rfl | hp
      · omega
      · exact hrest p hp
    · intro p hp
      simp only [bump, if_neg hk] at hp
      rcases List.mem_cons.mp hp with rfl | hp
      · exact h0
      · exact ih hrest p hp

theorem allPos_mergeInto :
    ∀ (l : Table) (g : Table), allPos g → allPos l → allPos (mergeInto g l) := by
  intro l
  induction l with
  | nil => intro g hg _; exact hg
  | cons p rest ih =>
    intro g hg hl
    have hstep : mergeInto g (p :: rest) = mergeInto (bump g p.1 p.2) rest := rfl
    rw [hstep]
    exact ih (bump g p.1 p.2) (allPos_bump g p.1 p.2 hg (hl p (List.mem_cons_self _ _)))
      (fun q hq => hl q (List.mem_cons_of_mem _ hq))

theorem tabCount_foldl_mergeInto (locs : List Table) (g : Table) (k : Key) :
    tabCount (locs.foldl mergeInto g) k
      = tabCount g k + (locs.map (fun l => entrySum l k)).sum := by
  induction locs generalizing g with
  | nil => simp
  | cons l rest ih =>
    simp only [List.foldl_cons, List.map_cons, List.sum_cons]
    rw [ih, tabCount_mergeInto]
    ring

theorem allPos_foldl_mergeInto :
    ∀ (locs : List Table) (g : Table), allPos g → (∀ l ∈ locs, allPos l) →
      allPos (locs.foldl mergeInto g) := by
  intro locs
  induction locs with
  | nil => intro g hg _; exact hg
  | cons l rest ih =>
    intro g hg hl
    simp only [List.foldl_cons]
    exact ih (mergeInto g l) (allPos_mergeInto l g hg (hl l (List.mem_cons_self _ _)))
      (fun q hq => hl q (List.mem_cons_of_mem _ hq))

theorem countKey_append (k : Key) (l1 l2 : List Key) :
    countKey k (l1 ++ l2) = countKey k l1 + countKey k l2 := by
  induction l1 with
  | nil => simp [countKey]
  | cons a rest ih => simp [countKey, ih]; ring

/-! ## Lemmas about the numeric parser -/

theorem fracPart_pos (cs : List Char) (r : Int) (f : Nat) (hf : 0 < f) :
    0 < (fracPart cs r f).2 := by
  induction cs generalizing r f with
  | nil => simpa [fracPart] using hf
  | cons c rest ih =>
    by_cases hc : '0' ≤ c ∧ c ≤ '9'
    · rw [fracPart, if_pos hc]
      exact ih _ _ (by omega)
    · rw [fracPart, if_neg hc]
      exact hf

theorem stofParse_den_pos (cs : List Char) : 0 < (stofParse cs).2 := by
  rw [stofParse]
  cases h : (intPart (stripSign cs).2 0).2 with
  | nil => exact Nat.one_pos
  | cons c rest =>
    by_cases hc : c = '.'
    · subst hc
      exact fracPart_pos _ _ _ Nat.one_pos
    · simp only []
      split
      · exact fracPart_pos _ _ _ Nat.one_pos
      · exact Nat.one_pos

theorem truncQuot_eq_ratTrunc (a : Int) (d : Nat) (hd : 0 < d) :
    truncQuot a d = ratTrunc ((a : ℚ) / (d : ℚ)) := by
  have hdq : (0 : ℚ) < (d : ℚ) := by exact_mod_cast hd
  rcases le_or_lt 0 a with ha | ha
  · have hq : (0 : ℚ) ≤ (a : ℚ) / (d : ℚ) := by positivity
    rw [truncQuot, if_pos ha, ratTrunc, if_pos hq, Rat.floor_intCast_div_natCast]
  · have haq : ((a : ℚ)) < 0 := by exact_mod_cast ha
    have hq : ¬ (0 : ℚ) ≤ (a : ℚ) / (d : ℚ) :=
      not_le.mpr (div_neg_of_neg_of_pos haq hdq)
    rw [truncQuot, if_neg (not_le.mpr ha), ratTrunc, if_neg hq, ← neg_div]
    rw [show -((a : ℚ)) = (((-a : Int)) : ℚ) by push_cast; ring, Rat.floor_intCast_div_natCast]

/-- Floor of a rational divided by a positive natural equals integer floor
division of its floor:  `⌊x / n⌋ = ⌊x⌋ / n`. -/
theorem floor_div_natCast (x : ℚ) (n : Nat) (hn : 0 < n) :
    ⌊x / (n : ℚ)⌋ = ⌊x⌋ / (n : Int) := by
  have hnq : (0 : ℚ) < (n : ℚ) := by exact_mod_cast hn
  have hnz : (0 : Int) < (n : Int) := by exact_mod_cast hn
  apply le_antisymm
  · rw [Int.le_ediv_iff_mul_le hnz, Int.le_floor]
    push_cast
    calc (⌊x / (n : ℚ)⌋ : ℚ) * (n : ℚ)
        ≤ (x / (n : ℚ)) * (n : ℚ) :=
          mul_le_mul_of_nonneg_right (Int.floor_le _) (le_of_lt hnq)
      _ = x := div_mul_cancel₀ x (ne_of_gt hnq)
  · rw [Int.le_floor, le_div_iff₀ hnq]
    calc ((⌊x⌋ / (n : Int) : Int) : ℚ) * (n : ℚ)
        = (((⌊x⌋ / (n : Int)) * (n : Int) : Int) : ℚ) := by push_cast; ring
      _ ≤ ((⌊x⌋ : Int) : ℚ) := by
          exact_mod_cast Int.ediv_mul_le ⌊x⌋ (ne_of_gt hnz)
      _ ≤ x := Int.floor_le x

theorem clampInt_mem (s : Int) : -1000 ≤ clampInt s ∧ clampInt s ≤ 1000 := by
  rw [clampInt]
  split
  · omega
  · split <;> omega

/-- The clamped-and-quantized score is a multiple of 5 in [-1000, 1000]. -/
theorem quant_shape (x : Int) :
    ((clampInt x / 5) * 5) % 5 = 0 ∧ -1000 ≤ (clampInt x / 5) * 5 ∧ (clampInt x / 5) * 5 ≤ 1000 := by
  have hb := clampInt_mem x
  refine ⟨Int.mul_emod_left _ 5, ?_, ?_⟩
  · have h1 : (-1000 : Int) / 5 ≤ clampInt x / 5 := Int.ediv_le_ediv (by norm_num) hb.1
    have h2 : ((-1000 : Int) / 5) = -200 := by decide
    have := mul_le_mul_of_nonneg_right (h2 ▸ h1) (by norm_num : (0:Int) ≤ 5)
    omega
  · have h1 : clampInt x / 5 * 5 ≤ clampInt x := Int.ediv_mul_le (clampInt x) (by norm_num)
    omega

/-- Every score `plyScore` produces is a multiple of 5 in [-1000, 1000] or a
mate sentinel, and never the no-score sentinel 1002. -/
theorem plyScore_shape (comment : String) (s : Int) (h : plyScore comment = some s) :
    ((s % 5 = 0 ∧ -1000 ≤ s ∧ s ≤ 1000) ∨ s = 1001 ∨ s = -1001) ∧ s ≠ 1002 := by
  have hmain : (s % 5 = 0 ∧ -1000 ≤ s ∧ s ≤ 1000) ∨ s = 1001 ∨ s = -1001 := by
    rw [plyScore] at h
    split at h
    · exact absurd h (by simp)
    · split at h
      · exact absurd h (by simp)
      · split at h
        · split at h
          · exact Or.inr (Or.inl (by injection h with h; omega))
          · exact Or.inr (Or.inr (by injection h with h; omega))
        · injection h with h
          subst h
          exact Or.inl (quant_shape _)
  refine ⟨hmain, ?_⟩
  rcases hmain with ⟨h5, _, hle⟩ | h | h <;> omega

/-! ## Lemmas about the move loop and game analysis -/

theorem anaLoop_trace_indep {B M : Type} (iface : BoardIface B M) (rk : ResultKey) :
    ∀ (ms : List (MoveRec M)) (b : B) (ply : Nat) (t t' : Table),
      (anaLoop iface rk b ply ms t).trace = (anaLoop iface rk b ply ms t').trace := by
  intro ms
  induction ms with
  | nil => intro b ply t t'; rfl
  | cons mv rest ih =>
    intro b ply t t'
    by_cases h4 : ply + 1 > 400
    · simp [anaLoop, h4]
    · cases hs : plyScore mv.comment with
      | none => simp only [anaLoop, if_neg h4, hs]; exact ih _ _ _ _
      | some s =>
        simp only [anaLoop, if_neg h4, hs]
        rw [ih _ _ (bump t _ 1) (bump t' _ 1)]

theorem anaLoop_table_count {B M : Type} (iface : BoardIface B M) (rk : ResultKey) :
    ∀ (ms : List (MoveRec M)) (b : B) (ply : Nat) (t : Table) (k : Key),
      tabCount (anaLoop iface rk b ply ms t).table k
        = tabCount t k
          + (countKey k (((anaLoop iface rk b ply ms t).trace).map (fun e => e.2.2)) : Int) := by
  intro ms
  induction ms with
  | nil => intro b ply t k; simp [anaLoop, countKey]
  | cons mv rest ih =>
    intro b ply t k
    by_cases h4 : ply + 1 > 400
    · simp [anaLoop, h4, countKey]
    · cases hs : plyScore mv.comment with
      | none =>
        simp only [anaLoop, if_neg h4, hs]
        exact ih _ _ _ _
      | some s =>
        simp only [anaLoop, if_neg h4, hs, List.map_cons]
        rw [ih _ _ (bump t _ 1) k, tabCount_bump]
        simp only [countKey]
        by_cases hk : mkKey iface rk b (ply + 1) s = k
        · simp only [hk, if_pos rfl]
          push_cast
          ring
        · simp [hk]

theorem anaLoop_keysND {B M : Type} (iface : BoardIface B M) (rk : ResultKey) :
    ∀ (ms : List (MoveRec M)) (b : B) (ply : Nat) (t : Table), keysND t →
      keysND (anaLoop iface rk b ply ms t).table := by
  intro ms
  induction ms with
  | nil => intro b ply t ht; exact ht
  | cons mv rest ih =>
    intro b ply t ht
    by_cases h4 : ply + 1 > 400
    · simpa [anaLoop, h4] using ht
    · cases hs : plyScore mv.comment with
      | none => simp only [anaLoop, if_neg h4, hs]; exact ih _ _ _ ht
      | some s =>
        simp only [anaLoop, if_neg h4, hs]
        exact ih _ _ _ (keysND_bump t _ 1 ht)

theorem anaLoop_allPos {B M : Type} (iface : BoardIface B M) (rk : ResultKey) :
    ∀ (ms : List (MoveRec M)) (b : B) (ply : Nat) (t : Table), allPos t →
      allPos (anaLoop iface rk b ply ms t).table := by
  intro ms
  induction ms with
  | nil => intro b ply t ht; exact ht
  | cons mv rest ih =>
    intro b ply t ht
    by_cases h4 : ply + 1 > 400
    · simpa [anaLoop, h4] using ht
    · cases hs : plyScore mv.comment with
      | none => simp only [anaLoop, if_neg h4, hs]; exact ih _ _ _ ht
      | some s =>
        simp only [anaLoop, if_neg h4, hs]
        exact ih _ _ _ (allPos_bump t _ 1 ht (le_refl 1))

theorem anaLoop_trace_ply_le {B M : Type} (iface : BoardIface B M) (rk : ResultKey) :
    ∀ (ms : List (MoveRec M)) (b : B) (ply : Nat) (t : Table) (p : Nat) (c : Color) (k : Key),
      (p, c, k) ∈ (anaLoop iface rk b ply ms t).trace → p ≤ 400 := by
  intro ms
  induction ms with
  | nil => intro b ply t p c k h; exact absurd h (by simp [anaLoop])
  | cons mv rest ih =>
    intro b ply t p c k h
    by_cases h4 : ply + 1 > 400
    · rw [anaLoop, if_pos h4] at h
      exact absurd h (by simp)
    · cases hs : plyScore mv.comment with
      | none =>
        rw [anaLoop, if_neg h4] at h
        simp only [hs] at h
        exact ih _ _ _ _ _ _ h
      | some s =>
        rw [anaLoop, if_neg h4] at h
        simp only [hs] at h
        rcases List.mem_cons.mp h with he | h
        · have : p = ply + 1 := congrArg Prod.fst he
          omega
        · exact ih _ _ _ _ _ _ h

theorem anaLoop_applied {B M : Type} (iface : BoardIface B M) (rk : ResultKey) :
    ∀ (ms : List (MoveRec M)) (b : B) (ply : Nat) (t : Table),
      (anaLoop iface rk b ply ms t).applied = (ms.take (400 - ply)).map MoveRec.move := by
  intro ms
  induction ms with
  | nil => intro b ply t; simp [anaLoop]
  | cons mv rest ih =>
    intro b ply t
    by_cases h4 : ply + 1 > 400
    · have h0 : 400 - ply = 0 := by omega
      simp [anaLoop, h4, h0]
    · have hsucc : 400 - ply = (400 - (ply + 1)) + 1 := by omega
      cases hs : plyScore mv.comment with
      | none =>
        simp only [anaLoop, if_neg h4, hs, hsucc, List.take_succ_cons, List.map_cons]
        rw [ih]
      | some s =>
        simp only [anaLoop, if_neg h4, hs, hsucc, List.take_succ_cons, List.map_cons]
        rw [ih]

theorem anaLoop_trace_outcome {B M : Type} (iface : BoardIface B M) (rk : ResultKey) :
    ∀ (ms : List (MoveRec M)) (b : B) (ply : Nat) (t : Table) (p : Nat) (c : Color) (k : Key),
      (p, c, k) ∈ (anaLoop iface rk b ply ms t).trace →
        k.outcome = (if c = Color.WHITE then rk.white else rk.black) := by
  intro ms
  induction ms with
  | nil => intro b ply t p c k h; exact absurd h (by simp [anaLoop])
  | cons mv rest ih =>
    intro b ply t p c k h
    by_cases h4 : ply + 1 > 400
    · rw [anaLoop, if_pos h4] at h
      exact absurd h (by simp)
    · cases hs : plyScore mv.comment with
      | none =>
        rw [anaLoop, if_neg h4] at h
        simp only [hs] at h
        exact ih _ _ _ _ _ _ h
      | some s =>
        rw [anaLoop, if_neg h4] at h
        simp only [hs] at h
        rcases List.mem_cons.mp h with he | h
        · have hc : c = iface.sideToMove b := congrArg (fun e => e.2.1) he
          have hk : k = mkKey iface rk b (ply + 1) s := congrArg (fun e => e.2.2) he
          subst hc; subst hk
          rfl
        · exact ih _ _ _ _ _ _ h

theorem anaLoop_trace_score {B M : Type} (iface : BoardIface B M) (rk : ResultKey) :
    ∀ (ms : List (MoveRec M)) (b : B) (ply : Nat) (t : Table) (p : Nat) (c : Color) (k : Key),
      (p, c, k) ∈ (anaLoop iface rk b ply ms t).trace →
        ∃ comment, plyScore comment = some k.score := by
  intro ms
  induction ms with
  | nil => intro b ply t p c k h; exact absurd h (by simp [anaLoop])
  | cons mv rest ih =>
    intro b ply t p c k h
    by_cases h4 : ply + 1 > 400
    · rw [anaLoop, if_pos h4] at h
      exact absurd h (by simp)
    · cases hs : plyScore mv.comment with
      | none =>
        rw [anaLoop, if_neg h4] at h
        simp only [hs] at h
        exact ih _ _ _ _ _ _ h
      | some s =>
        rw [anaLoop, if_neg h4] at h
        simp only [hs] at h
        rcases List.mem_cons.mp h with he | h
        · have hk : k = mkKey iface rk b (ply + 1) s := congrArg (fun e => e.2.2) he
          subst hk
          exact ⟨mv.comment, hs⟩
        · exact ih _ _ _ _ _ _ h

theorem gameOut_trace_eq {B M : Type} (iface : BoardIface B M) (g : GameRec M) (t : Table) :
    (gameOut iface g t).trace = gameTrace iface g := by
  rw [gameTrace, gameOut, gameOut]
  cases hr : g.headers "Result" with
  | none => rfl
  | some res =>
    cases hrk : resultKeyFor res with
    | none => simp only [hrk]
    | some rk =>
      simp only [hrk]
      exact anaLoop_trace_indep iface rk _ _ _ t []

theorem tabCount_anaGame {B M : Type} (iface : BoardIface B M) (t : Table) (g : GameRec M)
    (k : Key) :
    tabCount (anaGame iface t g) k = tabCount t k + (countKey k (gameKeys iface g) : Int) := by
  rw [anaGame, gameKeys, ← gameOut_trace_eq iface g t]
  rw [gameOut]
  cases hr : g.headers "Result" with
  | none => simp [countKey]
  | some res =>
    cases hrk : resultKeyFor res with
    | none => simp [hrk, countKey]
    | some rk =>
      simp only [hrk]
      exact anaLoop_table_count iface rk _ _ _ t k

theorem keysND_anaGame {B M : Type} (iface : BoardIface B M) (t : Table) (g : GameRec M)
    (ht : keysND t) : keysND (anaGame iface t g) := by
  rw [anaGame, gameOut]
  cases hr : g.headers "Result" with
  | none => exact ht
  | some res =>
    cases hrk : resultKeyFor res with
    | none =>
      simp only [hrk]
      exact ht
    | some rk =>
      simp only [hrk]
      exact anaLoop_keysND iface rk _ _ _ t ht

theorem allPos_anaGame {B M : Type} (iface : BoardIface B M) (t : Table) (g : GameRec M)
    (ht : allPos t) : allPos (anaGame iface t g) := by
  rw [anaGame, gameOut]
  cases hr : g.headers "Result" with
  | none => exact ht
  | some res =>
    cases hrk : resultKeyFor res with
    | none =>
      simp only [hrk]
      exact ht
    | some rk =>
      simp only [hrk]
      exact anaLoop_allPos iface rk _ _ _ t ht

theorem tabCount_anaFile {B M : Type} (iface : BoardIface B M) :
    ∀ (gs : List (GameRec M)) (t : Table) (k : Key),
      tabCount (anaFile iface t gs) k
        = tabCount t k + (countKey k ((gs.map (fun g => gameKeys iface g)).flatten) : Int) := by
  intro gs
  induction gs with
  | nil => intro t k; simp [anaFile, countKey]
  | cons g rest ih =>
    intro t k
    have hstep : anaFile iface t (g :: rest) = anaFile iface (anaGame iface t g) rest := rfl
    rw [hstep, ih, tabCount_anaGame, List.map_cons, List.flatten_cons, countKey_append]
    push_cast
    ring

theorem keysND_anaFile {B M : Type} (iface : BoardIface B M) :
    ∀ (gs : List (GameRec M)) (t : Table), keysND t → keysND (anaFile iface t gs) := by
  intro gs
  induction gs with
  | nil => intro t ht; exact ht
  | cons g rest ih =>
    intro t ht
    exact ih (anaGame iface t g) (keysND_anaGame iface t g ht)

theorem allPos_anaFile {B M : Type} (iface : BoardIface B M) :
    ∀ (gs : List (GameRec M)) (t : Table), allPos t → allPos (anaFile iface t gs) := by
  intro gs
  induction gs with
  | nil => intro t ht; exact ht
  | cons g rest ih =>
    intro t ht
    exact ih (anaGame iface t g) (allPos_anaGame iface t g ht)

theorem tabCount_ana_files {B M : Type} (iface : BoardIface B M) :
    ∀ (fs : List (List (GameRec M))) (t : Table) (k : Key),
      tabCount (ana_files iface t fs) k
        = tabCount t k + (countKey k (filesKeys iface fs) : Int) := by
  intro fs
  induction fs with
  | nil => intro t k; simp [ana_files, filesKeys, countKey]
  | cons gs rest ih =>
    intro t k
    have hstep : ana_files iface t (gs :: rest) = ana_files iface (anaFile iface t gs) rest := rfl
    have hkeys : filesKeys iface (gs :: rest)
        = (gs.map (fun g => gameKeys iface g)).flatten ++ filesKeys iface rest := by
      rw [filesKeys, filesKeys, List.flatten_cons, List.map_append, List.flatten_append]
    rw [hstep, ih, tabCount_anaFile, hkeys, countKey_append]
    push_cast
    ring

theorem keysND_ana_files {B M : Type} (iface : BoardIface B M) :
    ∀ (fs : List (List (GameRec M))) (t : Table), keysND t → keysND (ana_files iface t fs) := by
  intro fs
  induction fs with
  | nil => intro t ht; exact ht
  | cons gs rest ih =>
    intro t ht
    exact ih (anaFile iface t gs) (keysND_anaFile iface gs t ht)

theorem allPos_ana_files {B M : Type} (iface : BoardIface B M) :
    ∀ (fs : List (List (GameRec M))) (t : Table), allPos t → allPos (ana_files iface t fs) := by
  intro fs
  induction fs with
  | nil => intro t ht; exact ht
  | cons gs rest ih =>
    intro t ht
    exact ih (anaFile iface t gs) (allPos_anaFile iface gs t ht)

theorem filesKeys_append {B M : Type} (iface : BoardIface B M)
    (fs1 fs2 : List (List (GameRec M))) :
    filesKeys iface (fs1 ++ fs2) = filesKeys iface fs1 ++ filesKeys iface fs2 := by
  rw [filesKeys, filesKeys, filesKeys, List.flatten_append, List.map_append, List.flatten_append]

/-! ## Lemmas about the chunking -/

theorem splitChunksGo_nil {α : Type} (cs fuel : Nat) :
    splitChunksGo (α := α) cs fuel [] = [] := by
  cases fuel <;> rfl

theorem splitChunksGo_flatten {α : Type} (cs : Nat) :
    ∀ (fuel : Nat) (l : List α), l.length ≤ fuel →
      (splitChunksGo cs fuel l).flatten = l := by
  intro fuel
  induction fuel with
  | zero =>
    intro l hl
    cases l with
    | nil => rfl
    | cons a l' => simp at hl
  | succ fuel ih =>
    intro l hl
    cases l with
    | nil => rfl
    | cons a l' =>
      have hrec : (l'.drop (cs - 1)).length ≤ fuel := by
        rw [List.length_drop]
        simp at hl
        omega
      simp only [splitChunksGo, List.flatten_cons, ih _ hrec]
      rw [List.cons_append, List.take_append_drop]

theorem splitChunksGo_chunk_bounds {α : Type} (cs : Nat) (hcs : 1 ≤ cs) :
    ∀ (fuel : Nat) (l : List α) (ch : List α), ch ∈ splitChunksGo cs fuel l →
      ch ≠ [] ∧ ch.length ≤ cs := by
  intro fuel
  induction fuel with
  | zero =>
    intro l ch hch
    cases l with
    | nil => exact absurd hch (by simp [splitChunksGo])
    | cons a l' => exact absurd hch (by simp [splitChunksGo])
  | succ fuel ih =>
    intro l ch hch
    cases l with
    | nil => exact absurd hch (by simp [splitChunksGo])
    | cons a l' =>
      rw [splitChunksGo] at hch
      rcases List.mem_cons.mp hch with rfl | hch
      · refine ⟨by simp, ?_⟩
        simp only [List.length_cons, List.length_take]
        omega
      · exact ih _ _ hch

theorem splitChunksGo_dropLast_exact {α : Type} (cs : Nat) (hcs : 1 ≤ cs) :
    ∀ (fuel : Nat) (l : List α) (ch : List α),
      ch ∈ (splitChunksGo cs fuel l).dropLast → ch.length = cs := by
  intro fuel
  induction fuel with
  | zero =>
    intro l ch hch
    cases l with
    | nil => exact absurd hch (by simp [splitChunksGo])
    | cons a l' => exact absurd hch (by simp [splitChunksGo])
  | succ fuel ih =>
    intro l ch hch
    cases l with
    | nil => exact absurd hch (by simp [splitChunksGo])
    | cons a l' =>
      rw [splitChunksGo] at hch
      by_cases hd : l'.drop (cs - 1) = []
      · rw [hd, splitChunksGo_nil] at hch
        exact absurd hch (by simp)
      · have hne : splitChunksGo cs fuel (l'.drop (cs - 1)) ≠ [] := by
          intro he
          cases hfd : l'.drop (cs - 1) with
          | nil => exact hd hfd
          | cons b l'' =>
            rw [hfd] at he
            cases fuel with
            | zero =>
              -- fuel exhausted with a non-empty remainder cannot happen here:
              -- fuel bounds are only needed for the flatten/length lemmas, but
              -- in this case the chunk list is [] so the goal is vacuous
              rw [hfd] at hch
              rw [he] at hch
              exact absurd hch (by simp)
            | succ fuel' => simp [splitChunksGo] at he
        rw [List.dropLast_cons_of_ne_nil hne] at hch
        rcases List.mem_cons.mp hch with rfl | hch
        · have hlen : cs - 1 ≤ l'.length := by
            by_contra hlt
            exact hd (List.drop_eq_nil_iff.mpr (by omega))
          simp only [List.length_cons, List.length_take]
          omega
        · exact ih _ _ hch

theorem splitChunksGo_length_eq {α : Type} (cs : Nat) (hcs : 1 ≤ cs) :
    ∀ (fuel : Nat) (l : List α), l.length ≤ fuel →
      (splitChunksGo cs fuel l).length = (l.length + cs - 1) / cs := by
  intro fuel
  induction fuel with
  | zero =>
    intro l hl
    cases l with
    | nil => simp [splitChunksGo_nil, Nat.div_eq_of_lt (by omega : cs - 1 < cs)]
    | cons a l' => simp at hl
  | succ fuel ih =>
    intro l hl
    cases l with
    | nil => simp [splitChunksGo_nil, Nat.div_eq_of_lt (by omega : cs - 1 < cs)]
    | cons a l' =>
      have hrec : (l'.drop (cs - 1)).length ≤ fuel := by
        rw [List.length_drop]
        simp at hl
        omega
      rw [splitChunksGo, List.length_cons, ih _ hrec, List.length_drop, List.length_cons]
      have hrw : l'.length + 1 + cs - 1 = (l'.length + 1 - 1) + cs := by omega
      rw [hrw, Nat.add_div_right _ (by omega : 0 < cs)]
      by_cases hsm : l'.length + 1 ≤ cs
      · have h0 : l'.length - (cs - 1) = 0 := by omega
        rw [h0]
        rw [Nat.div_eq_of_lt (by omega : 0 + cs - 1 < cs),
          Nat.div_eq_of_lt (by omega : l'.length + 1 - 1 < cs)]
      · have hrw2 : l'.length - (cs - 1) + cs - 1 = l'.length + 1 - 1 := by omega
        rw [hrw2]

theorem chunks_size_pos (n tc : Nat) (hn : 1 ≤ n) (htc : 1 ≤ tc) :
    1 ≤ (n + tc - 1) / tc := by
  rw [Nat.le_div_iff_mul_le (by omega : 0 < tc)]
  omega

theorem le_chunks_size_mul (n tc : Nat) (htc : 0 < tc) :
    n ≤ ((n + tc - 1) / tc) * tc := by
  have h := Nat.div_add_mod (n + tc - 1) tc
  have hm : (n + tc - 1) % tc < tc := Nat.mod_lt _ htc
  rw [Nat.mul_comm] at h
  generalize hq : ((n + tc - 1) / tc) * tc = x at h ⊢
  omega

theorem chunk_count_le_target (n tc : Nat) (hn : 1 ≤ n) (htc : 1 ≤ tc) :
    (n + ((n + tc - 1) / tc) - 1) / ((n + tc - 1) / tc) ≤ tc := by
  have hcs : 1 ≤ (n + tc - 1) / tc := chunks_size_pos n tc hn htc
  have hle : n ≤ ((n + tc - 1) / tc) * tc := le_chunks_size_mul n tc (by omega)
  rw [Nat.div_le_iff_le_mul_add_pred (by omega : 0 < (n + tc - 1) / tc)]
  rw [Nat.mul_comm] at hle ⊢
  generalize hq : tc * ((n + tc - 1) / tc) = x at hle ⊢
  have hq1 : 1 ≤ (n + tc - 1) / tc := hcs
  omega

theorem tabCount_nil (k : Key) : tabCount [] k = 0 := rfl

/-- The two quantization pipelines agree on non-negative parsed values. -/
theorem quant_agree (v : ℚ) (hv : 0 ≤ v) : truncThenQuant v = specClaimQuant v := by
  have hx0 : (0 : ℚ) ≤ 100 * v := by positivity
  have htr : ratTrunc (100 * v) = ⌊(100 * v : ℚ)⌋ := by rw [ratTrunc, if_pos hx0]
  have h200 : ⌊((1000 : ℚ)) / 5⌋ = 200 := by
    rw [show ((1000 : ℚ)) / 5 = ((200 : Int) : ℚ) by norm_num, Int.floor_intCast]
  have hmax : max (-1000 : ℚ) (min 1000 (100 * v)) = min 1000 (100 * v) :=
    max_eq_right (le_min (by norm_num) (by linarith))
  rw [truncThenQuant, htr, specClaimQuant, hmax]
  by_cases hgt : (1000 : Int) < ⌊(100 * v : ℚ)⌋
  · have hxgt : (1000 : ℚ) < 100 * v := by
      calc (1000 : ℚ) < ((⌊(100 * v : ℚ)⌋ : Int) : ℚ) := by exact_mod_cast hgt
        _ ≤ 100 * v := Int.floor_le _
    rw [min_eq_left (le_of_lt hxgt), clampInt, if_pos hgt, h200]
    decide
  · have h0le : (0 : Int) ≤ ⌊(100 * v : ℚ)⌋ := Int.le_floor.mpr (by exact_mod_cast hx0)
    have hnlt : ¬ ⌊(100 * v : ℚ)⌋ < -1000 := by omega
    rw [clampInt, if_neg hgt, if_neg hnlt]
    by_cases hx1000 : (100 * v : ℚ) ≤ 1000
    · rw [min_eq_right hx1000]
      have h5 : ⌊(100 * v : ℚ) / 5⌋ = ⌊(100 * v : ℚ)⌋ / 5 := by
        rw [show (5 : ℚ) = ((5 : Nat) : ℚ) by norm_num,
          floor_div_natCast _ 5 (by norm_num),
          show ((5 : Nat) : Int) = 5 by norm_num]
      rw [h5]
    · have hfl : ⌊(100 * v : ℚ)⌋ = 1000 := by
        have h1 : (1000 : Int) ≤ ⌊(100 * v : ℚ)⌋ := by
          rw [Int.le_floor]
          push_cast
          linarith [not_le.mp hx1000]
        omega
      rw [min_eq_left (le_of_lt (not_le.mp hx1000)), hfl, h200]
      decide

theorem sum_countKey_chunks {B M : Type} (iface : BoardIface B M) (k : Key) :
    ∀ (chunks : List (List (List (GameRec M)))),
      ((chunks.map (fun ch => (countKey k (filesKeys iface ch) : Int))).sum)
        = (countKey k (filesKeys iface chunks.flatten) : Int) := by
  intro chunks
  induction chunks with
  | nil => simp [filesKeys, countKey]
  | cons ch rest ih =>
    rw [List.map_cons, List.sum_cons, List.flatten_cons, filesKeys_append, countKey_append, ih]
    push_cast
    ring

theorem allPos_nil : allPos [] := by
  intro p hp
  simp at hp

theorem keysND_nil : keysND [] := by
  simp [keysND]

/-- Games with a missing or unrecognized result string leave the map
untouched (shared between the claims about skipping). -/
theorem anaGame_unrecognized {B M : Type} (iface : BoardIface B M) (t : Table) (g : GameRec M)
    (h : ∀ s, g.headers "Result" = some s → s ≠ "1-0" ∧ s ≠ "0-1" ∧ s ≠ "1/2-1/2") :
    anaGame iface t g = t := by
  rw [anaGame, gameOut]
  cases hr : g.headers "Result" with
  | none => rfl
  | some res =>
    obtain ⟨h1, h2, h3⟩ := h res hr
    have hrk : resultKeyFor res = none := by
      rw [resultKeyFor, if_neg h1, if_neg h2, if_neg h3]
    simp only [hrk]

/-- The outcome stored with every trace entry is the per-game outcome pair's
value for the side to move (shared helper for the outcome claims). -/
theorem gameTrace_outcome_of_result {B M : Type} (iface : BoardIface B M) (g : GameRec M)
    (res : String) (rk : ResultKey) (p : Nat) (c : Color) (k : Key)
    (hres : g.headers "Result" = some res) (hrk : resultKeyFor res = some rk)
    (hmem : (p, c, k) ∈ gameTrace iface g) :
    k.outcome = if c = Color.WHITE then rk.white else rk.black := by
  rw [gameTrace, gameOut, hres] at hmem
  dsimp only at hmem
  rw [hrk] at hmem
  exact anaLoop_trace_outcome iface rk _ _ _ _ p c k hmem

/-- Claim C1: for every fixed set of input games, the final global table's
count for any key equals the number of plies, over all processed games, that
map to that key — identically for every partition of the files into chunks
and every order in which the local chunk tables are merged into the global
table (the merge is commutative and associative over counts). -/
theorem c1_global_count {B M : Type} (iface : BoardIface B M)
    (files : List (List (GameRec M)))
    (chunks : List (List (List (GameRec M))))
    (locs : List Table) (k : Key)
    (hchunks : chunks.flatten = files)
    (hlocs : locs.Perm (chunks.map (fun ch => ana_files iface [] ch))) :
    tabCount (locs.foldl mergeInto []) k = (countKey k (filesKeys iface files) : Int) := by
  rw [tabCount_foldl_mergeInto, tabCount_nil, zero_add]
  rw [(hlocs.map (fun l => entrySum l k)).sum_eq, List.map_map]
  have hpt : ∀ ch ∈ chunks,
      ((fun l => entrySum l k) ∘ (fun ch => ana_files iface [] ch)) ch
        = (fun ch => (countKey k (filesKeys iface ch) : Int)) ch := by
    intro ch _
    simp only [Function.comp]
    rw [entrySum_eq_tabCount _ _ (keysND_ana_files iface ch [] keysND_nil)]
    rw [tabCount_ana_files, tabCount_nil, zero_add]
  rw [List.map_congr_left hpt, sum_countKey_chunks, hchunks]

/-- Witness for C1 on two one-file chunks merged in reversed order. -/
theorem c1_global_count_witness :
    ([[[gW]], [[gL]]] : List (List (List (GameRec Unit)))).flatten = [[gW], [gL]]
    ∧ ([ana_files cbIface [] [[gL]], ana_files cbIface [] [[gW]]]).Perm
        (([[[gW]], [[gL]]] : List (List (List (GameRec Unit)))).map
          (fun ch => ana_files cbIface [] ch))
    ∧ tabCount (([ana_files cbIface [] [[gL]],
          ana_files cbIface [] [[gW]]]).foldl mergeInto []) kW1
        = (countKey kW1 (filesKeys cbIface [[gW], [gL]]) : Int) :=
  ⟨rfl, by decide,
    c1_global_count cbIface [[gW], [gL]] [[[gW]], [[gL]]]
      [ana_files cbIface [] [[gL]], ana_files cbIface [] [[gW]]] kW1 rfl (by decide)⟩

/-- Claim C10: every entry of the final global table — merged from local
tables that are each built only by +1 increments — has a count of at least
1; no zero or negative counts are stored. -/
theorem c10_counts_positive {B M : Type} (iface : BoardIface B M)
    (chunks : List (List (List (GameRec M))))
    (locs : List Table)
    (hlocs : locs.Perm (chunks.map (fun ch => ana_files iface [] ch))) :
    ∀ p ∈ locs.foldl mergeInto [], (1 : Int) ≤ p.2 := by
  have hall : ∀ l ∈ locs, allPos l := by
    intro l hl
    rcases List.mem_map.mp (hlocs.mem_iff.mp hl) with ⟨ch, _, rfl⟩
    exact allPos_ana_files iface ch [] allPos_nil
  exact allPos_foldl_mergeInto locs [] allPos_nil hall

/-- Witness for C10 on the same two-chunk merge as C1's witness. -/
theorem c10_counts_positive_witness :
    ([ana_files cbIface [] [[gL]], ana_files cbIface [] [[gW]]]).Perm
      (([[[gW]], [[gL]]] : List (List (List (GameRec Unit)))).map
        (fun ch => ana_files cbIface [] ch))
    ∧ ∀ p ∈ ([ana_files cbIface [] [[gL]],
        ana_files cbIface [] [[gW]]]).foldl mergeInto [], (1 : Int) ≤ p.2 :=
  ⟨by decide,
    c10_counts_positive cbIface [[[gW]], [[gL]]]
      [ana_files cbIface [] [[gL]], ana_files cbIface [] [[gW]]] (by decide)⟩

/-- Claim C2: every key the feature extractor stores has a score that is a
multiple of 5 within [-1000, 1000], or exactly +1001, or exactly -1001; the
no-score sentinel 1002 is never stored as part of a key. -/
theorem c2_score_quantization {B M : Type} (iface : BoardIface B M) (g : GameRec M)
    (p : Nat) (c : Color) (k : Key)
    (hmem : (p, c, k) ∈ gameTrace iface g) :
    ((k.score % 5 = 0 ∧ -1000 ≤ k.score ∧ k.score ≤ 1000)
      ∨ k.score = 1001 ∨ k.score = -1001) ∧ k.score ≠ 1002 := by
  have hex : ∃ comment, plyScore comment = some k.score := by
    rw [gameTrace, gameOut] at hmem
    cases hr : g.headers "Result" with
    | none =>
      rw [hr] at hmem
      exact absurd hmem (by simp)
    | some res =>
      rw [hr] at hmem
      dsimp only at hmem
      cases hrk : resultKeyFor res with
      | none =>
        rw [hrk] at hmem
        exact absurd hmem (by simp)
      | some rk => exact anaLoop_trace_score iface rk _ _ _ _ p c k (by rw [hrk] at hmem; exact hmem)
  rcases hex with ⟨comment, hcomment⟩
  exact plyScore_shape comment k.score hcomment

/-- Witness for C2 at the mate-scored ply of `gW`. -/
theorem c2_score_quantization_witness :
    ((2, Color.BLACK, kW2) ∈ gameTrace cbIface gW)
    ∧ (((kW2.score % 5 = 0 ∧ -1000 ≤ kW2.score ∧ kW2.score ≤ 1000)
        ∨ kW2.score = 1001 ∨ kW2.score = -1001) ∧ kW2.score ≠ 1002) :=
  ⟨by decide, c2_score_quantization cbIface gW 2 Color.BLACK kW2 (by decide)⟩

/-- Claim C8: a game whose result header is missing or not one of "1-0",
"0-1", "1/2-1/2" leaves the frequency table completely unchanged. -/
theorem c8_invalid_result_unchanged {B M : Type} (iface : BoardIface B M) (t : Table)
    (g : GameRec M)
    (h : ∀ s, g.headers "Result" = some s → s ≠ "1-0" ∧ s ≠ "0-1" ∧ s ≠ "1/2-1/2") :
    anaGame iface t g = t :=
  anaGame_unrecognized iface t g h

/-- Witness for C8 on a game with result string "*". -/
theorem c8_invalid_result_unchanged_witness :
    anaGame cbIface [(kW1, 3)] gX = [(kW1, 3)] :=
  c8_invalid_result_unchanged cbIface [(kW1, 3)] gX
    (fun s hs => by
      have hx : some "*" = some s := by simpa [gX] using hs
      have hss : s = "*" := (Option.some.inj hx).symm
      subst hss
      exact ⟨by decide, by decide, by decide⟩)

/-- Claim C5: result "1-0" gives outcome WIN on white-to-move plies and LOSS
on black-to-move plies; "0-1" the reverse; "1/2-1/2" always DRAW; any other
or absent result yields zero increments for the game. -/
theorem c5_outcome_mapping {B M : Type} (iface : BoardIface B M) (g : GameRec M) (t : Table) :
    (∀ p c k, (p, c, k) ∈ gameTrace iface g →
      (g.headers "Result" = some "1-0" →
        (c = Color.WHITE → k.outcome = Result.WIN) ∧ (c = Color.BLACK → k.outcome = Result.LOSS))
      ∧ (g.headers "Result" = some "0-1" →
        (c = Color.WHITE → k.outcome = Result.LOSS) ∧ (c = Color.BLACK → k.outcome = Result.WIN))
      ∧ (g.headers "Result" = some "1/2-1/2" → k.outcome = Result.DRAW))
    ∧ (∀ s, g.headers "Result" = some s → s ≠ "1-0" → s ≠ "0-1" → s ≠ "1/2-1/2" →
        anaGame iface t g = t)
    ∧ (g.headers "Result" = none → anaGame iface t g = t) := by
  refine ⟨?_, ?_, ?_⟩
  · intro p c k hmem
    refine ⟨?_, ?_, ?_⟩
    · intro hres
      have ho := gameTrace_outcome_of_result iface g "1-0" ⟨Result.WIN, Result.LOSS⟩
        p c k hres (by decide) hmem
      constructor
      · intro hc
        rw [hc] at ho
        simpa using ho
      · intro hc
        rw [hc] at ho
        simpa using ho
    · intro hres
      have ho := gameTrace_outcome_of_result iface g "0-1" ⟨Result.LOSS, Result.WIN⟩
        p c k hres (by decide) hmem
      constructor
      · intro hc
        rw [hc] at ho
        simpa using ho
      · intro hc
        rw [hc] at ho
        simpa using ho
    · intro hres
      have ho := gameTrace_outcome_of_result iface g "1/2-1/2" ⟨Result.DRAW, Result.DRAW⟩
        p c k hres (by decide) hmem
      rw [ho]
      cases hc : c <;> simp
  · intro s hs h1 h2 h3
    exact anaGame_unrecognized iface t g
      (fun s' hs' => by
        rw [hs] at hs'
        have : s = s' := Option.some.inj hs'
        subst this
        exact ⟨h1, h2, h3⟩)
  · intro hnone
    exact anaGame_unrecognized iface t g
      (fun s' hs' => by rw [hnone] at hs'; exact Option.noConfusion hs')

/-- Witness for C5: the white-to-move ply of the "1-0" game `gW` gets WIN,
the black-to-move ply gets LOSS. -/
theorem c5_outcome_mapping_witness :
    ((1, Color.WHITE, kW1) ∈ gameTrace cbIface gW)
    ∧ ((2, Color.BLACK, kW2) ∈ gameTrace cbIface gW)
    ∧ kW1.outcome = Result.WIN ∧ kW2.outcome = Result.LOSS :=
  ⟨by decide, by decide,
    (((c5_outcome_mapping cbIface gW []).1 1 Color.WHITE kW1 (by decide)).1 rfl).1 rfl,
    (((c5_outcome_mapping cbIface gW []).1 2 Color.BLACK kW2 (by decide)).1 rfl).2 rfl⟩

/-- Claim C6: no key is produced for a ply number greater than 400, and the
moves actually applied to the board are exactly the first 400 (when the game
is processed at all; a skipped game applies none). -/
theorem c6_ply_cutoff {B M : Type} (iface : BoardIface B M) (g : GameRec M) (t : Table) :
    (∀ p c k, (p, c, k) ∈ (gameOut iface g t).trace → p ≤ 400)
    ∧ ((gameOut iface g t).applied = []
        ∨ (gameOut iface g t).applied = (g.moves.take 400).map MoveRec.move) := by
  constructor
  · intro p c k hmem
    rw [gameOut] at hmem
    cases hr : g.headers "Result" with
    | none =>
      rw [hr] at hmem
      exact absurd hmem (by simp)
    | some res =>
      rw [hr] at hmem
      dsimp only at hmem
      cases hrk : resultKeyFor res with
      | none =>
        rw [hrk] at hmem
        exact absurd hmem (by simp)
      | some rk =>
        rw [hrk] at hmem
        exact anaLoop_trace_ply_le iface rk _ _ _ _ p c k hmem
  · rw [gameOut]
    cases hr : g.headers "Result" with
    | none => exact Or.inl rfl
    | some res =>
      cases hrk : resultKeyFor res with
      | none =>
        simp only [hrk]
        exact Or.inl trivial
      | some rk =>
        simp only [hrk]
        refine Or.inr ?_
        have ha := anaLoop_applied iface rk g.moves (startBoard iface g) 0 t
        simpa using ha

/-- Witness for C6 at the game `gW`. -/
theorem c6_ply_cutoff_witness :
    ((1 : Nat) ≤ 400)
    ∧ (gameOut cbIface gW []).applied = (gW.moves.take 400).map MoveRec.move :=
  ⟨(c6_ply_cutoff cbIface gW []).1 1 Color.WHITE kW1 (by decide),
    ((c6_ply_cutoff cbIface gW []).2).resolve_left (by decide)⟩

/-- Claim C4: an annotation with a '/' delimiter whose prefix has the mate
indicator 'M' as second character stores +1001 when the first character is
'+' and -1001 when it is '-'. -/
theorem c4_mate_scores (comment : String) (d : Nat)
    (hd : List.findIdx? (fun ch => ch = '/') comment.data = some d)
    (hM : cppAt (comment.data.take d) 1 = 'M') :
    (cppAt (comment.data.take d) 0 = '+' → plyScore comment = some 1001)
    ∧ (cppAt (comment.data.take d) 0 = '-' → plyScore comment = some (-1001)) := by
  have hbook : comment ≠ "book" := by
    intro he
    rw [he] at hd
    rw [show List.findIdx? (fun ch => ch = '/') "book".data = none from rfl] at hd
    exact Option.noConfusion hd
  constructor
  · intro hplus
    rw [plyScore, hd]
    dsimp only
    rw [if_neg hbook, if_pos hM, if_pos hplus]
  · intro hminus
    have hne : ¬ cppAt (comment.data.take d) 0 = '+' := by
      rw [hminus]
      decide
    rw [plyScore, hd]
    dsimp only
    rw [if_neg hbook, if_pos hM, if_neg hne]

/-- Witness for C4 at the annotation "-M3/20". -/
theorem c4_mate_scores_witness :
    (List.findIdx? (fun ch => ch = '/') "-M3/20".data = some 3)
    ∧ cppAt ("-M3/20".data.take 3) 1 = 'M'
    ∧ plyScore "-M3/20" = some (-1001) :=
  ⟨by decide, by decide,
    (c4_mate_scores "-M3/20" 3 (by decide) (by decide)).2 (by decide)⟩

/-- Claim C9 (code evidence): for the comment "/18" — a '/' delimiter as the
annotation's first character — the text before the delimiter is empty, so the
mate-indicator read `match_score[1]` is outside the defined index range of
the prefix (C++ `std::string::operator[]` is defined only for positions up to
the size). -/
theorem c9_read_out_of_bounds :
    List.findIdx? (fun ch => ch = '/') "/18".data = some 0
    ∧ ("/18".data.take 0).length = 0
    ∧ mateReadOk "/18" = false := by
  decide

/-- Counterexample to claim C3 as stated: for the annotation "-0.053/10" the
code stores -5, but the claimed pipeline (multiply the parsed value by 100,
clamp, then floor to the lower multiple of 5) yields -10 — the code truncates
the product toward zero to an int before clamping and quantizing. -/
theorem c3_counterexample :
    plyScore "-0.053/10" = some (-5)
    ∧ specClaimQuant (fast_stof ("-0.053/10".data.take 6)) = -10
    ∧ plyScore "-0.053/10" ≠ some (specClaimQuant (fast_stof ("-0.053/10".data.take 6))) := by
  have h1 : plyScore "-0.053/10" = some (-5) := by decide
  have hp : stofParse ("-0.053/10".data.take 6) = (-53, 1000) := by decide
  have hv : fast_stof ("-0.053/10".data.take 6) = ((-53 : Int) : ℚ) / ((1000 : Nat) : ℚ) := by
    rw [fast_stof, hp]
  have h2 : specClaimQuant (((-53 : Int) : ℚ) / ((1000 : Nat) : ℚ)) = -10 := by
    rw [specClaimQuant]
    have hx : (100 : ℚ) * (((-53 : Int) : ℚ) / ((1000 : Nat) : ℚ)) = -53 / 10 := by
      push_cast
      ring
    rw [hx, min_eq_right (by norm_num : (-53 / 10 : ℚ) ≤ 1000),
      max_eq_right (by norm_num : (-1000 : ℚ) ≤ -53 / 10)]
    have hdiv : ((-53 / 10 : ℚ)) / 5 = ((-53 : Int) : ℚ) / ((50 : Nat) : ℚ) := by
      push_cast
      ring
    rw [hdiv, Rat.floor_intCast_div_natCast]
    decide
  exact ⟨h1, by rw [hv]; exact h2, by rw [hv, h2, h1]; decide⟩

/-- Claim C3 as amended: for every non-mate annotation prefix the stored
score equals the pipeline that first truncates 100·v toward zero to an
integer (v the parsed value; this is the C++ `float → int` conversion), then
clamps to [-1000, 1000], then rounds toward negative infinity to the nearest
lower multiple of 5; this agrees with the originally claimed pipeline for all
non-negative parsed values (so "7.01/10" still yields 700). -/
theorem c3_quantization_amended (comment : String) (d : Nat)
    (hd : List.findIdx? (fun ch => ch = '/') comment.data = some d)
    (hM : cppAt (comment.data.take d) 1 ≠ 'M') :
    plyScore comment = some (truncThenQuant (fast_stof (comment.data.take d)))
    ∧ ∀ v : ℚ, 0 ≤ v → truncThenQuant v = specClaimQuant v := by
  constructor
  · have hbook : comment ≠ "book" := by
      intro he
      rw [he] at hd
      rw [show List.findIdx? (fun ch => ch = '/') "book".data = none from rfl] at hd
      exact Option.noConfusion hd
    rw [plyScore, hd]
    dsimp only
    rw [if_neg hbook, if_neg hM]
    congr 1
    rw [truncThenQuant]
    have hA : truncQuot (100 * (stofParse (comment.data.take d)).1)
        (stofParse (comment.data.take d)).2
        = ratTrunc (100 * fast_stof (comment.data.take d)) := by
      rw [truncQuot_eq_ratTrunc _ _ (stofParse_den_pos (comment.data.take d))]
      congr 1
      rw [fast_stof]
      push_cast
      ring
    rw [hA]
  · exact quant_agree

/-- Witness for the amended C3 at the annotation "7.01/10" (score 700). -/
theorem c3_quantization_amended_witness :
    (List.findIdx? (fun ch => ch = '/') "7.01/10".data = some 4)
    ∧ cppAt ("7.01/10".data.take 4) 1 ≠ 'M'
    ∧ plyScore "7.01/10" = some (truncThenQuant (fast_stof ("7.01/10".data.take 4)))
    ∧ plyScore "7.01/10" = some 700 :=
  ⟨by decide, by decide,
    (c3_quantization_amended "7.01/10" 4 (by decide) (by decide)).1,
    by decide⟩

/-- Counterexample to claim C7 as stated: 5 files and hardware parallelism 1
give `target_chunks = 4`, but the planner produces only 3 chunks (of sizes 2,
2, 1) — the number of chunks is the ceiling of `n / chunks_size`, which can
be smaller than `target_chunks`. -/
theorem c7_counterexample :
    (split_chunks ["a", "b", "c", "d", "e"] (target_chunks 1)).length = 3
    ∧ target_chunks 1 = 4 := by
  decide

/-- Claim C7 as amended: for a non-empty file list the planner cuts the list
into contiguous groups whose concatenation is the original list, each of size
`chunks_size = ceil(n / target_chunks)` except possibly the last, which is
non-empty and no larger; the number of groups is `ceil(n / chunks_size)`,
which is at most — but not always equal to — `target_chunks`, where
`target_chunks = 4 * max(1, hardware parallelism)`. -/
theorem c7_chunking_amended {α : Type} (l : List α) (hw : Nat) (hne : l ≠ []) :
    (split_chunks l (target_chunks hw)).flatten = l
    ∧ (∀ ch ∈ split_chunks l (target_chunks hw),
        ch ≠ [] ∧ ch.length ≤ (l.length + target_chunks hw - 1) / target_chunks hw)
    ∧ (∀ ch ∈ (split_chunks l (target_chunks hw)).dropLast,
        ch.length = (l.length + target_chunks hw - 1) / target_chunks hw)
    ∧ (split_chunks l (target_chunks hw)).length
        = (l.length + (l.length + target_chunks hw - 1) / target_chunks hw - 1)
          / ((l.length + target_chunks hw - 1) / target_chunks hw)
    ∧ (split_chunks l (target_chunks hw)).length ≤ target_chunks hw := by
  have htc : 1 ≤ target_chunks hw := by
    rw [target_chunks]
    omega
  have hn : 1 ≤ l.length := List.length_pos.mpr hne
  have hcs : 1 ≤ (l.length + target_chunks hw - 1) / target_chunks hw :=
    chunks_size_pos _ _ hn htc
  simp only [split_chunks]
  refine ⟨splitChunksGo_flatten _ _ _ (le_refl _),
    fun ch hch => splitChunksGo_chunk_bounds _ hcs _ _ ch hch,
    fun ch hch => splitChunksGo_dropLast_exact _ hcs _ _ ch hch,
    splitChunksGo_length_eq _ hcs _ _ (le_refl _), ?_⟩
  rw [splitChunksGo_length_eq _ hcs _ _ (le_refl _)]
  exact chunk_count_le_target _ _ hn htc

/-- Witness for the amended C7 on 5 files and hardware parallelism 1. -/
theorem c7_chunking_amended_witness :
    (["a", "b", "c", "d", "e"] : List String) ≠ []
    ∧ (split_chunks ["a", "b", "c", "d", "e"] (target_chunks 1)).flatten
        = ["a", "b", "c", "d", "e"]
    ∧ (split_chunks ["a", "b", "c", "d", "e"] (target_chunks 1)).length ≤ target_chunks 1 :=
  ⟨by decide,
    (c7_chunking_amended ["a", "b", "c", "d", "e"] 1 (by decide)).1,
    (c7_chunking_amended ["a", "b", "c", "d", "e"] 1 (by decide)).2.2.2.2⟩
